import Mathlib

/-!
Verification of the `vss-rust-client-ffi` repository: a client for a
versioned key-value storage service (Put/Get/List/Delete under
optimistic-concurrency version control) exposed across an FFI boundary.

The repository ships only the Python packaging script
`src/bindings/python/setup.py`; the native core (Version Store Client
Core, Wire Codec, FFI Boundary Adapter) is specified but its source is
not present.  The packaging script is embedded directly; the core
components are modelled from the specification, as marked on each
definition.
-/

namespace VSS

/-- Modelled from the spec: the closed error taxonomy of §7 (the core's
source is absent from the repository). -/
inductive VssError where
  | validationError
  | conflictError
  | notFoundError
  | connectionError
  | timeoutError
  | ambiguousError
  | protocolError
  | internalError
  deriving DecidableEq

instance {ε α : Type} [DecidableEq ε] [DecidableEq α] : DecidableEq (Except ε α) := fun
  | .ok a, .ok b =>
      if h : a = b then .isTrue (by rw [h])
      else .isFalse (by intro hh; cases hh; exact h rfl)
  | .error a, .error b =>
      if h : a = b then .isTrue (by rw [h])
      else .isFalse (by intro hh; cases hh; exact h rfl)
  | .ok _, .error _ => .isFalse (by intro hh; cases hh)
  | .error _, .ok _ => .isFalse (by intro hh; cases hh)

/-! ## Packaging script (src/bindings/python/setup.py) -/

/-- Outcome of the `open("README.md", "r")` / `f.read()` attempt in
`setup.py`: the read succeeds with the file contents, or raises
`FileNotFoundError`, or raises some other exception. -/
inductive ReadmeRead where
  | contents (s : String)
  | fileNotFound
  | otherExc (e : String)
  deriving DecidableEq

/-- The fallback description hard-coded in `setup.py`. -/
def defaultLongDescription : String := "Python bindings for the VSS Rust Client FFI"

/-- Embedding of the `try/except FileNotFoundError` block of
`setup.py` computing `long_description`: only `FileNotFoundError` is
caught (yielding the default string); any other exception propagates. -/
def computeLongDescription : ReadmeRead → Except String String
  | .contents s => .ok s
  | .fileNotFound => .ok defaultLongDescription
  | .otherExc e => .error e

/-- The keyword arguments passed to `setup(...)` in `setup.py`,
restricted to the fields with concrete literal values. -/
structure SetupConfig where
  name : String
  version : String
  packageData : List (String × List String)
  installRequires : List String
  author : String
  authorEmail : String
  description : String
  longDescriptionContentType : String
  url : String
  classifiers : List String
  pythonRequires : String
  deriving DecidableEq

/-- Embedding of the literal `setup(...)` call in `setup.py`. -/
def setupConfig : SetupConfig :=
  { name := "vss-rust-client-ffi"
    version := "0.1.0"
    packageData := [("vss_rust_client_ffi", ["*.so", "*.dylib", "*.dll"])]
    installRequires := []
    author := "VSS"
    authorEmail := ""
    description := "Python bindings for the VSS Rust Client FFI"
    longDescriptionContentType := "text/markdown"
    url := ""
    classifiers :=
      [ "Programming Language :: Python :: 3"
      , "License :: OSI Approved :: MIT License"
      , "Operating System :: OS Independent" ]
    pythonRequires := ">=3.6" }

/-! ## Version Store Client Core (modelled from the spec, §3–§4.1) -/

/-- Modelled from the spec: a Key is a byte sequence (the FFI ABI of §6
passes `key_bytes`); it must be non-empty. -/
abbrev Key := List Nat

/-- Modelled from the spec: a Value is an opaque byte sequence,
size-bounded by the backend's limit. -/
abbrev Value := List Nat

/-- Modelled from the spec: the backend's Value size bound (§3); the
concrete number is an arbitrary positive constant. -/
def maxValueSize : Nat := 1048576

/-- Modelled from the spec: the (Value, Version) pair stored under one
Key; the Version is a non-negative integer. -/
structure Entry where
  value : Value
  version : Nat
  deriving DecidableEq

/-- Modelled from the spec: the durable state of one Namespace at the
backend, an association of Keys to Entries. -/
abbrev Store := List (Key × Entry)

/-- Association-list lookup of a Key in the Store. -/
def lookupKey : Store → Key → Option Entry
  | [], _ => none
  | (k', e) :: rest, k => if k' = k then some e else lookupKey rest k

/-- The stored Version of a Key, `none` when the Key does not exist. -/
def versionOf (st : Store) (k : Key) : Option Nat :=
  (lookupKey st k).map Entry.version

/-- Replace the Entry stored under `k` (first occurrence) by the given
Value and Version. -/
def updateKey : Store → Key → Value → Nat → Store
  | [], _, _, _ => []
  | (k', e) :: rest, k, v, ver =>
      if k' = k then (k, ⟨v, ver⟩) :: rest else (k', e) :: updateKey rest k v ver

/-- Remove the Entry stored under `k` (first occurrence). -/
def removeKey : Store → Key → Store
  | [], _ => []
  | (k', e) :: rest, k => if k' = k then rest else (k', e) :: removeKey rest k

/-- Modelled from the spec: the "does not exist yet" sentinel for
ExpectedVersion (§3 allows -1 for create-only semantics). -/
def notExistsSentinel : Int := -1

/-- Modelled from the spec: `Put(Namespace, Key, Value, ExpectedVersion)`
(§4.1).  Fails with `validationError` if the Key is empty or the Value
exceeds the size bound; with the sentinel it creates the Key at Version 0
and fails with `conflictError` if the Key already exists; otherwise the
stored Version must equal ExpectedVersion (an absent Key counts as
Version 0, so that `Put(k, v, 0)` then `Put(k, v2, 1)` yields Version 2
as §8 requires) and on success the stored Version becomes
ExpectedVersion + 1. -/
def putOp (st : Store) (k : Key) (v : Value) (expected : Int) :
    Except VssError (Store × Nat) :=
  if k = [] then .error .validationError
  else if maxValueSize < v.length then .error .validationError
  else if expected = notExistsSentinel then
    match lookupKey st k with
    | some _ => .error .conflictError
    | none => .ok ((k, ⟨v, 0⟩) :: st, 0)
  else
    match lookupKey st k with
    | some e =>
        if (e.version : Int) = expected then
          .ok (updateKey st k v (e.version + 1), e.version + 1)
        else .error .conflictError
    | none =>
        if expected = 0 then .ok ((k, ⟨v, 1⟩) :: st, 1)
        else .error .conflictError

/-- Modelled from the spec: `Get(Namespace, Key)` → Item or
`notFoundError` (§4.1). -/
def getOp (st : Store) (k : Key) : Except VssError (Value × Nat) :=
  match lookupKey st k with
  | some e => .ok (e.value, e.version)
  | none => .error .notFoundError

/-- Modelled from the spec: `Delete(Namespace, Key, ExpectedVersion)`,
same version-check discipline as Put, `notFoundError` when the Key is
absent (§4.1). -/
def deleteOp (st : Store) (k : Key) (expected : Int) : Except VssError Store :=
  match lookupKey st k with
  | none => .error .notFoundError
  | some e =>
      if (e.version : Int) = expected then .ok (removeKey st k)
      else .error .conflictError

/-- Boolean lexicographic order on Keys (byte sequences), used for the
ascending Key order of `List` (§4.1). -/
def keyLe : Key → Key → Bool
  | [], _ => true
  | _ :: _, [] => false
  | a :: as, b :: bs =>
      if a < b then true else if b < a then false else keyLe as bs

/-- Boolean test that `p` is a prefix of `k`. -/
def isPrefOf : Key → Key → Bool
  | [], _ => true
  | _ :: _, [] => false
  | a :: as, b :: bs => a = b && isPrefOf as bs

/-- Modelled from the spec: the page size of one `List` call (finite per
call, §4.1); the concrete number is an arbitrary positive constant. -/
def pageSize : Nat := 100

/-- Order on (Key, Version) pairs by Key, for sorting `List` results. -/
def entryLe (a b : Key × Nat) : Prop := keyLe a.1 b.1 = true

instance : DecidableRel entryLe := fun a b => decEq (keyLe a.1 b.1) true

/-- All (Key, Version) pairs of the Store whose Key has the given
prefix, in ascending Key order. -/
def keysWithPref (st : Store) (p : Key) : List (Key × Nat) :=
  List.insertionSort entryLe
    ((st.filter (fun kv => isPrefOf p kv.1)).map (fun kv => (kv.1, kv.2.version)))

/-- Modelled from the spec: a PageToken is a byte sequence; a
well-formed token is the base-256 digit string of a start position,
anything else is malformed. -/
def parseToken (t : List Nat) : Option Nat :=
  if t.all (fun b => b < 256) then some (Nat.ofDigits 256 t) else none

/-- Little-endian base-256 digits of `n`, with explicit fuel. -/
def toDigits256 : Nat → Nat → List Nat
  | 0, _ => []
  | _ + 1, 0 => []
  | fuel + 1, n + 1 => (n + 1) % 256 :: toDigits256 fuel ((n + 1) / 256)

/-- Encode a start position as a PageToken. -/
def tokenOf (n : Nat) : List Nat := toDigits256 n n

/-- Modelled from the spec: `List(Namespace, KeyPrefix, PageToken)`
(§4.1): one finite page of (Key, Version) pairs in ascending Key order,
plus the token resuming after it; `validationError` on a malformed
PageToken. -/
def listOp (st : Store) (p : Key) (token : List Nat) :
    Except VssError (List (Key × Nat) × Option (List Nat)) :=
  match parseToken token with
  | none => .error .validationError
  | some start =>
      let all := keysWithPref st p
      let page := (all.drop start).take pageSize
      let next :=
        if start + pageSize < all.length then some (tokenOf (start + pageSize))
        else none
      .ok (page, next)

/-- Drive `listOp` to exhaustion from the given start position,
concatenating the pages; `fuel` bounds the number of calls. -/
def collectPages (st : Store) (p : Key) : Nat → Nat → List (Key × Nat)
  | _, 0 => []
  | start, fuel + 1 =>
      match listOp st p (tokenOf start) with
      | .error _ => []
      | .ok (page, none) => page
      | .ok (page, some next) =>
          match parseToken next with
          | none => page
          | some start' => page ++ collectPages st p start' fuel

/-- Well-formedness of a Store: no duplicate Keys. -/
def StoreWF (st : Store) : Prop := (st.map Prod.fst).Nodup

/-- The operations of the core, for stating state invariants. -/
inductive Op where
  | put (k : Key) (v : Value) (expected : Int)
  | get (k : Key)
  | list (p : Key) (token : List Nat)
  | delete (k : Key) (expected : Int)

/-- The Store after one operation (a failed operation leaves the Store
unchanged; Get and List never change it). -/
def applyOp (st : Store) : Op → Store
  | .put k v expected =>
      match putOp st k v expected with
      | .ok (st', _) => st'
      | .error _ => st
  | .get _ => st
  | .list _ _ => st
  | .delete k expected =>
      match deleteOp st k expected with
      | .ok st' => st'
      | .error _ => st

/-- The Store after a sequence of operations. -/
def applyOps (st : Store) : List Op → Store
  | [] => st
  | op :: rest => applyOps (applyOp st op) rest

/-! ## ClientHandle state machine (modelled from the spec, §4.1) -/

/-- Modelled from the spec: the states of one ClientHandle
(`Created → Open → Closed`, §4.1). -/
inductive HState where
  | created
  | opened
  | closed
  deriving DecidableEq

/-- Events driving one ClientHandle: an open attempt (which may fail),
one of the four store operations, and close. -/
inductive HEvent where
  | openAttempt (success : Bool)
  | operation (op : Op)
  | closeCall

/-- Modelled from the spec: the ClientHandle state machine (§4.1, §7).
Only `opened` permits operations; `closed` is terminal; `created → opened`
may fail with `connectionError`; any use of a closed handle (an
operation, a second close, a re-open) is a programming error reported as
`internalError`, never undefined behavior. -/
def hstep : HState → HEvent → HState × Option VssError
  | .created, .openAttempt true => (.opened, none)
  | .created, .openAttempt false => (.created, some .connectionError)
  | .created, .operation _ => (.created, some .internalError)
  | .created, .closeCall => (.created, some .internalError)
  | .opened, .openAttempt _ => (.opened, some .internalError)
  | .opened, .operation _ => (.opened, none)
  | .opened, .closeCall => (.closed, none)
  | .closed, _ => (.closed, some .internalError)

/-- Numeric rank of a handle state along `Created → Open → Closed`. -/
def hrank : HState → Nat
  | .created => 0
  | .opened => 1
  | .closed => 2

/-! ## Wire Codec (modelled from the spec, §4.2) -/

/-- Modelled from the spec: an Item is the triple (Key, Value, Version)
exchanged with the backend (§3). -/
structure Item where
  key : Key
  value : Value
  version : Nat
  deriving DecidableEq

/-- Modelled from the spec: deterministic serialization of an Item into
the backend's request byte format (§4.2): each variable-length field is
length-prefixed, the Version closes the message. -/
def encodeItem (it : Item) : List Nat :=
  it.key.length :: (it.key ++ it.value.length :: (it.value ++ [it.version]))

/-- Read one length-prefixed field from a byte stream, returning the
field and the remaining stream; `none` when the stream is truncated. -/
def readField : List Nat → Option (List Nat × List Nat)
  | [] => none
  | n :: rest =>
      if n ≤ rest.length then some (rest.take n, rest.drop n) else none

/-- Modelled from the spec: total deserialization of a backend response
into an Item; any malformed byte stream yields `protocolError`, never a
crash (§4.2). -/
def decodeItem (bs : List Nat) : Except VssError Item :=
  match readField bs with
  | none => .error .protocolError
  | some (k, rest) =>
      match readField rest with
      | none => .error .protocolError
      | some (v, tail) =>
          match tail with
          | [ver] => .ok ⟨k, v, ver⟩
          | _ => .error .protocolError

/-! ## Retry policy (modelled from the spec, §4.1 algorithm-level policy) -/

/-- The four operation kinds, for the retry policy. -/
inductive OpKind where
  | getK
  | listK
  | putK
  | deleteK
  deriving DecidableEq

/-- Get and List are idempotent reads; Put and Delete mutate. -/
def isIdempotent : OpKind → Bool
  | .getK => true
  | .listK => true
  | .putK => false
  | .deleteK => false

/-- Outcome of one backend attempt: success, version conflict, or a
transient transport failure — with the backend either guaranteeing the
write was not applied or leaving the apply state unknown. -/
inductive Attempt where
  | succeeded
  | conflicted
  | transientNotApplied
  | transientUnknown
  deriving DecidableEq

/-- Modelled from the spec: an attempt may be retried only on a
transient transport failure, and only when the operation is provably
safe to retry: idempotent operations always, mutating operations only
when the backend guarantees the write was not applied (§4.1). -/
def safeToRetry (op : OpKind) : Attempt → Bool
  | .transientNotApplied => true
  | .transientUnknown => isIdempotent op
  | .succeeded => false
  | .conflicted => false

/-- Modelled from the spec: the bounded retry loop of the core (§4.1).
`outcomes` is the sequence of backend attempt outcomes; the result pairs
the call's result with the number of backend attempts consumed.  A
conflict is surfaced immediately as `conflictError`; an unsafe transient
failure is surfaced immediately as `ambiguousError`; a safe transient
failure is retried while retries remain. -/
def runWithRetry (op : OpKind) : List Attempt → Nat → Except VssError Unit × Nat
  | [], _ => (.error .connectionError, 0)
  | a :: rest, retriesLeft =>
      match a with
      | .succeeded => (.ok (), 1)
      | .conflicted => (.error .conflictError, 1)
      | .transientNotApplied | .transientUnknown =>
          if safeToRetry op a then
            match retriesLeft with
            | 0 => (.error .connectionError, 1)
            | r + 1 =>
                let res := runWithRetry op rest r
                (res.1, res.2 + 1)
          else (.error .ambiguousError, 1)

/-! ## FFI Boundary Adapter buffer discipline (modelled from the spec, §4.3) -/

/-- Modelled from the spec: the Adapter's allocation-tracking state —
the set of live output buffers (by id) and a fresh-id counter (§4.3,
§8 "allocation-tracking"). -/
structure AdapterState where
  live : List Nat
  next : Nat
  deriving DecidableEq

/-- Invariant of the Adapter's allocation state: live buffer ids are
distinct and below the fresh-id counter. -/
def AdapterInv (s : AdapterState) : Prop :=
  s.live.Nodup ∧ ∀ b ∈ s.live, b < s.next

/-- A successful call that returns a buffer: the Adapter hands back a
fresh buffer id, transferred to the caller. -/
def allocBuffer (s : AdapterState) : Nat × AdapterState :=
  (s.next, ⟨s.next :: s.live, s.next + 1⟩)

/-- Modelled from the spec: `release_buffer` (§6): releasing a live
buffer frees it exactly once; releasing anything else (a double free or
a never-allocated id) is refused and reported, never acted on. -/
def releaseBuffer (s : AdapterState) (b : Nat) : AdapterState × Bool :=
  if b ∈ s.live then (⟨s.live.erase b, s.next⟩, true) else (s, false)

/-! ## Helper lemmas -/

theorem lookupKey_eq_none_iff (st : Store) (k : Key) :
    lookupKey st k = none ↔ k ∉ st.map Prod.fst := by
  induction st with
  | nil => simp [lookupKey]
  | cons kv rest ih =>
      obtain ⟨k', e⟩ := kv
      simp only [lookupKey, List.map_cons, List.mem_cons]
      by_cases h : k' = k
      · subst h
        simp
      · simp [h, ih, Ne.symm h]

theorem lookupKey_updateKey_self (st : Store) (k : Key) (v : Value) (ver : Nat)
    (e : Entry) (h : lookupKey st k = some e) :
    lookupKey (updateKey st k v ver) k = some ⟨v, ver⟩ := by
  induction st with
  | nil => simp [lookupKey] at h
  | cons kv rest ih =>
      obtain ⟨k', e'⟩ := kv
      by_cases hk : k' = k
      · subst hk
        simp [updateKey, lookupKey]
      · simp only [lookupKey, if_neg hk] at h
        simp only [updateKey, if_neg hk, lookupKey, if_neg hk]
        exact ih h

theorem lookupKey_updateKey_ne (st : Store) (k k2 : Key) (v : Value) (ver : Nat)
    (h : k ≠ k2) : lookupKey (updateKey st k2 v ver) k = lookupKey st k := by
  induction st with
  | nil => simp [updateKey]
  | cons kv rest ih =>
      obtain ⟨k', e'⟩ := kv
      by_cases hk : k' = k2
      · subst hk
        rw [show updateKey ((k', e') :: rest) k' v ver = (k', ⟨v, ver⟩) :: rest by
          simp [updateKey]]
        simp [lookupKey, Ne.symm h]
      · rw [show updateKey ((k', e') :: rest) k2 v ver = (k', e') :: updateKey rest k2 v ver by
          simp [updateKey, hk]]
        by_cases hk2 : k' = k
        · simp [lookupKey, hk2]
        · simp [lookupKey, hk2, ih]

theorem lookupKey_removeKey_ne (st : Store) (k k2 : Key) (h : k ≠ k2) :
    lookupKey (removeKey st k2) k = lookupKey st k := by
  induction st with
  | nil => simp [removeKey]
  | cons kv rest ih =>
      obtain ⟨k', e'⟩ := kv
      by_cases hk : k' = k2
      · subst hk
        rw [show removeKey ((k', e') :: rest) k' = rest by simp [removeKey]]
        simp [lookupKey, Ne.symm h]
      · rw [show removeKey ((k', e') :: rest) k2 = (k', e') :: removeKey rest k2 by
          simp [removeKey, hk]]
        by_cases hk2 : k' = k
        · simp [lookupKey, hk2]
        · simp [lookupKey, hk2, ih]

theorem removeKey_sublist (st : Store) (k : Key) : (removeKey st k).Sublist st := by
  induction st with
  | nil => exact List.Sublist.refl _
  | cons kv rest ih =>
      obtain ⟨k', e'⟩ := kv
      by_cases hk : k' = k
      · rw [show removeKey ((k', e') :: rest) k = rest by simp [removeKey, hk]]
        exact List.sublist_cons_self _ _
      · rw [show removeKey ((k', e') :: rest) k = (k', e') :: removeKey rest k by
          simp [removeKey, hk]]
        exact ih.cons₂ _

theorem lookupKey_removeKey_self (st : Store) (k : Key) (hwf : StoreWF st) :
    lookupKey (removeKey st k) k = none := by
  induction st with
  | nil => simp [removeKey, lookupKey]
  | cons kv rest ih =>
      obtain ⟨k', e'⟩ := kv
      have hmem : k' ∉ rest.map Prod.fst := (List.nodup_cons.mp hwf).1
      have hwf' : StoreWF rest := (List.nodup_cons.mp hwf).2
      by_cases hk : k' = k
      · subst hk
        simp only [removeKey, if_pos rfl]
        exact (lookupKey_eq_none_iff rest k').mpr hmem
      · simp only [removeKey, if_neg hk, lookupKey, if_neg hk]
        exact ih hwf'

theorem map_fst_updateKey (st : Store) (k : Key) (v : Value) (ver : Nat) :
    (updateKey st k v ver).map Prod.fst = st.map Prod.fst := by
  induction st with
  | nil => simp [updateKey]
  | cons kv rest ih =>
      obtain ⟨k', e'⟩ := kv
      by_cases hk : k' = k
      · subst hk
        simp [updateKey]
      · simp [updateKey, hk, ih]

/-! ## Theorems -/

/-- C9: if opening README.md raises `FileNotFoundError`, `long_description`
is exactly the fallback string; when the read succeeds it is the full file
contents; any other exception propagates uncaught. -/
theorem long_description_fallback :
    computeLongDescription .fileNotFound = .ok "Python bindings for the VSS Rust Client FFI" ∧
    (∀ s, computeLongDescription (.contents s) = .ok s) ∧
    (∀ e, computeLongDescription (.otherExc e) = .error e) :=
  ⟨rfl, fun _ => rfl, fun _ => rfl⟩

/-- C10: the `setup(...)` call maps the package `vss_rust_client_ffi` to
exactly the native-library patterns `*.so`, `*.dylib`, `*.dll`, and
declares an empty `install_requires`. -/
theorem setup_package_data :
    setupConfig.packageData = [("vss_rust_client_ffi", ["*.so", "*.dylib", "*.dll"])] ∧
    setupConfig.installRequires = [] :=
  ⟨rfl, rfl⟩

/-- C3: a ClientHandle only moves forward along Created → Open → Closed,
one step at a time; only the Open state lets an operation succeed; Closed
is terminal; an operation, a re-open or a second close on a closed handle
yields `internalError`, never undefined behavior. -/
theorem client_handle_state_machine :
    (∀ s e, hrank s ≤ hrank (hstep s e).1 ∧ hrank (hstep s e).1 ≤ hrank s + 1) ∧
    (∀ s op, (hstep s (.operation op)).2 = none → s = .opened) ∧
    (∀ e, (hstep .closed e).1 = .closed) ∧
    (∀ op, hstep .closed (.operation op) = (.closed, some .internalError)) ∧
    hstep .closed .closeCall = (.closed, some .internalError) := by
  refine ⟨?_, ?_, ?_, ?_, rfl⟩
  · intro s e
    cases e with
    | openAttempt b => cases s <;> cases b <;> simp [hstep, hrank]
    | operation op => cases s <;> simp [hstep, hrank]
    | closeCall => cases s <;> simp [hstep, hrank]
  · intro s op h
    cases s <;> simp [hstep] at h ⊢
  · intro e
    cases e <;> rfl
  · intro op
    rfl

/-- Closed witness for C3: the Open state accepts an operation. -/
theorem client_handle_state_machine_witness :
    HState.opened = HState.opened :=
  client_handle_state_machine.2.1 .opened (.get [1]) rfl

theorem readField_frame (l rest : List Nat) :
    readField (l.length :: (l ++ rest)) = some (l, rest) := by
  simp [readField, List.take_left, List.drop_left]

/-- C4: decoding the encoding of any Item yields the Item back unchanged,
and encoding is deterministic — equal Items encode to identical bytes. -/
theorem wire_codec_roundtrip :
    (∀ it : Item, decodeItem (encodeItem it) = .ok it) ∧
    (∀ it it' : Item, it = it' → encodeItem it = encodeItem it') := by
  refine ⟨?_, fun it it' h => h ▸ rfl⟩
  intro it
  have h1 := readField_frame it.key (it.value.length :: (it.value ++ [it.version]))
  have h2 := readField_frame it.value [it.version]
  simp [decodeItem, encodeItem, h1, h2]

/-- Closed witness for C4 at a concrete Item. -/
theorem wire_codec_roundtrip_witness :
    decodeItem (encodeItem ⟨[1, 2], [3, 4, 5], 7⟩) = .ok ⟨[1, 2], [3, 4, 5], 7⟩ ∧
    encodeItem ⟨[1, 2], [3, 4, 5], 7⟩ = encodeItem ⟨[1, 2], [3, 4, 5], 7⟩ :=
  ⟨wire_codec_roundtrip.1 ⟨[1, 2], [3, 4, 5], 7⟩,
   wire_codec_roundtrip.2 ⟨[1, 2], [3, 4, 5], 7⟩ ⟨[1, 2], [3, 4, 5], 7⟩ rfl⟩

theorem runWithRetry_attempts_le (op : OpKind) (outcomes : List Attempt) :
    ∀ r, (runWithRetry op outcomes r).2 ≤ r + 1 := by
  induction outcomes with
  | nil => intro r; simp [runWithRetry]
  | cons a rest ih =>
      intro r
      cases a with
      | succeeded => simp [runWithRetry]
      | conflicted => simp [runWithRetry]
      | transientNotApplied =>
          cases r with
          | zero =>
              by_cases hs : safeToRetry op .transientNotApplied = true
              · simp [runWithRetry, hs]
              · simp [runWithRetry, hs]
          | succ r' =>
              by_cases hs : safeToRetry op .transientNotApplied = true
              · simp only [runWithRetry, if_pos hs]
                exact Nat.add_le_add_right (ih r') 1
              · simp only [runWithRetry, if_neg hs]
                omega
      | transientUnknown =>
          cases r with
          | zero =>
              by_cases hs : safeToRetry op .transientUnknown = true
              · simp [runWithRetry, hs]
              · simp [runWithRetry, hs]
          | succ r' =>
              by_cases hs : safeToRetry op .transientUnknown = true
              · simp only [runWithRetry, if_pos hs]
                exact Nat.add_le_add_right (ih r') 1
              · simp only [runWithRetry, if_neg hs]
                omega

/-- C7: a version conflict is surfaced immediately and never retried;
the number of backend attempts never exceeds the retry budget plus one;
a mutating Put or Delete whose transient failure leaves the apply state
unknown surfaces `ambiguousError` after a single attempt, never
auto-retried; idempotent Get and List do retry a transient failure, as
do Put and Delete when the backend guarantees the write was not
applied. -/
theorem retry_policy :
    (∀ (op : OpKind) (rest : List Attempt) (r : Nat),
       runWithRetry op (.conflicted :: rest) r = (.error .conflictError, 1)) ∧
    (∀ (op : OpKind) (outcomes : List Attempt) (r : Nat),
       (runWithRetry op outcomes r).2 ≤ r + 1) ∧
    (∀ (rest : List Attempt) (r : Nat),
       runWithRetry .putK (.transientUnknown :: rest) r = (.error .ambiguousError, 1) ∧
       runWithRetry .deleteK (.transientUnknown :: rest) r = (.error .ambiguousError, 1)) ∧
    (∀ (rest : List Attempt) (r : Nat),
       runWithRetry .getK (.transientUnknown :: rest) (r + 1) =
         ((runWithRetry .getK rest r).1, (runWithRetry .getK rest r).2 + 1) ∧
       runWithRetry .listK (.transientUnknown :: rest) (r + 1) =
         ((runWithRetry .listK rest r).1, (runWithRetry .listK rest r).2 + 1) ∧
       runWithRetry .putK (.transientNotApplied :: rest) (r + 1) =
         ((runWithRetry .putK rest r).1, (runWithRetry .putK rest r).2 + 1) ∧
       runWithRetry .deleteK (.transientNotApplied :: rest) (r + 1) =
         ((runWithRetry .deleteK rest r).1, (runWithRetry .deleteK rest r).2 + 1)) := by
  refine ⟨fun op rest r => rfl, runWithRetry_attempts_le, ?_, ?_⟩
  · intro rest r
    exact ⟨rfl, rfl⟩
  · intro rest r
    exact ⟨rfl, rfl, rfl, rfl⟩

theorem releaseBuffer_live (s : AdapterState) (b : Nat) (h : b ∈ s.live) :
    releaseBuffer s b = (⟨s.live.erase b, s.next⟩, true) := by
  simp [releaseBuffer, h]

theorem releaseBuffer_dead (s : AdapterState) (b : Nat) (h : b ∉ s.live) :
    releaseBuffer s b = (s, false) := by
  simp [releaseBuffer, h]

/-- C8: the Adapter hands back only fresh buffers (never one still live),
releasing a live buffer removes exactly that buffer, a second release of
the same buffer is refused (no double free), releasing an id that is not
live leaves the state untouched, and the allocation-tracking invariant is
preserved by both operations. -/
theorem ffi_buffer_discipline :
    (∀ s : AdapterState, AdapterInv s →
       (allocBuffer s).1 ∉ s.live ∧ AdapterInv (allocBuffer s).2) ∧
    (∀ (s : AdapterState) (b : Nat), AdapterInv s → b ∈ s.live →
       (releaseBuffer s b).2 = true ∧
       b ∉ (releaseBuffer s b).1.live ∧
       releaseBuffer (releaseBuffer s b).1 b = ((releaseBuffer s b).1, false) ∧
       AdapterInv (releaseBuffer s b).1) ∧
    (∀ (s : AdapterState) (b : Nat), b ∉ s.live → releaseBuffer s b = (s, false)) := by
  refine ⟨?_, ?_, releaseBuffer_dead⟩
  · intro s hinv
    obtain ⟨hnodup, hlt⟩ := hinv
    simp only [allocBuffer]
    constructor
    · intro hmem
      exact absurd (hlt _ hmem) (Nat.lt_irrefl _)
    · constructor
      · exact List.nodup_cons.mpr ⟨fun hmem => absurd (hlt _ hmem) (Nat.lt_irrefl _), hnodup⟩
      · intro b hb
        show b < s.next + 1
        rcases List.mem_cons.mp hb with h | h
        · omega
        · exact Nat.lt_trans (hlt _ h) (Nat.lt_succ_self _)
  · intro s b hinv hb
    obtain ⟨hnodup, hlt⟩ := hinv
    have herase : b ∉ s.live.erase b := by
      intro hmem
      exact ((hnodup.mem_erase_iff.mp hmem).1) rfl
    rw [releaseBuffer_live s b hb]
    refine ⟨rfl, herase, ?_, ?_⟩
    · exact releaseBuffer_dead _ _ herase
    · constructor
      · exact (List.erase_sublist b s.live).nodup hnodup
      · intro c hc
        exact hlt _ ((List.erase_sublist b s.live).mem hc)

/-- Closed witness for C8 at a concrete adapter state. -/
theorem ffi_buffer_discipline_witness :
    releaseBuffer ⟨[0, 1], 2⟩ 1 = (⟨[0], 2⟩, true) ∧
    releaseBuffer ⟨[0], 2⟩ 1 = (⟨[0], 2⟩, false) := by
  have h := ffi_buffer_discipline.2.1 ⟨[0, 1], 2⟩ 1 ⟨by decide, by decide⟩ (by decide)
  refine ⟨by decide, ?_⟩
  have h2 := h.2.2.1
  rw [show (releaseBuffer ⟨[0, 1], 2⟩ 1).1 = (⟨[0], 2⟩ : AdapterState) by decide] at h2
  exact h2

theorem coe_version_ne_sentinel (n : Nat) : (n : Int) ≠ notExistsSentinel := by
  simp only [notExistsSentinel]
  omega

/-- C1: with valid inputs, Put on an existing Key whose stored Version
differs from ExpectedVersion fails with `conflictError`; Put with the
matching Version succeeds and the stored Version becomes
ExpectedVersion + 1; Put with the not-exists sentinel on an absent Key
succeeds at Version 0 and on an existing Key fails with `conflictError`;
and from an absent Key, `Put(k, v1, 0)` succeeds, a second
`Put(k, v2, 0)` fails with `conflictError`, and `Put(k, v2, 1)` succeeds
yielding Version 2. -/
theorem put_optimistic_concurrency :
    (∀ (st : Store) (k : Key) (v : Value) (ev : Int) (e : Entry),
       k ≠ [] → v.length ≤ maxValueSize → lookupKey st k = some e →
       (e.version : Int) ≠ ev → putOp st k v ev = .error .conflictError) ∧
    (∀ (st : Store) (k : Key) (v : Value) (e : Entry),
       k ≠ [] → v.length ≤ maxValueSize → lookupKey st k = some e →
       putOp st k v (e.version : Int) =
         .ok (updateKey st k v (e.version + 1), e.version + 1) ∧
       versionOf (updateKey st k v (e.version + 1)) k = some (e.version + 1)) ∧
    (∀ (st : Store) (k : Key) (v : Value),
       k ≠ [] → v.length ≤ maxValueSize → lookupKey st k = none →
       putOp st k v notExistsSentinel = .ok ((k, ⟨v, 0⟩) :: st, 0) ∧
       versionOf ((k, ⟨v, 0⟩) :: st) k = some 0) ∧
    (∀ (st : Store) (k : Key) (v : Value) (e : Entry),
       k ≠ [] → v.length ≤ maxValueSize → lookupKey st k = some e →
       putOp st k v notExistsSentinel = .error .conflictError) ∧
    (∀ (st : Store) (k : Key) (v1 v2 : Value),
       k ≠ [] → v1.length ≤ maxValueSize → v2.length ≤ maxValueSize →
       lookupKey st k = none →
       putOp st k v1 0 = .ok ((k, ⟨v1, 1⟩) :: st, 1) ∧
       putOp ((k, ⟨v1, 1⟩) :: st) k v2 0 = .error .conflictError ∧
       putOp ((k, ⟨v1, 1⟩) :: st) k v2 1 = .ok ((k, ⟨v2, 2⟩) :: st, 2)) := by
  refine ⟨?_, ?_, ?_, ?_, ?_⟩
  · intro st k v ev e hk hv hlook hne
    by_cases hs : ev = notExistsSentinel
    · simp [putOp, if_neg hk, Nat.not_lt.mpr hv, hs, hlook]
    · simp [putOp, if_neg hk, Nat.not_lt.mpr hv, hs, hlook, hne]
  · intro st k v e hk hv hlook
    constructor
    · simp [putOp, if_neg hk, Nat.not_lt.mpr hv, coe_version_ne_sentinel e.version, hlook]
    · simp [versionOf, lookupKey_updateKey_self st k v (e.version + 1) e hlook]
  · intro st k v hk hv hlook
    constructor
    · simp [putOp, if_neg hk, Nat.not_lt.mpr hv, hlook]
    · simp [versionOf, lookupKey]
  · intro st k v e hk hv hlook
    simp [putOp, if_neg hk, Nat.not_lt.mpr hv, hlook]
  · intro st k v1 v2 hk hv1 hv2 hlook
    have hlook1 : lookupKey ((k, (⟨v1, 1⟩ : Entry)) :: st) k = some ⟨v1, 1⟩ := by
      simp [lookupKey]
    refine ⟨?_, ?_, ?_⟩
    · simp [putOp, if_neg hk, Nat.not_lt.mpr hv1, hlook, notExistsSentinel]
    · simp [putOp, if_neg hk, Nat.not_lt.mpr hv2, hlook1, notExistsSentinel]
    · have hupd : updateKey ((k, (⟨v1, 1⟩ : Entry)) :: st) k v2 2 = (k, ⟨v2, 2⟩) :: st := by
        simp [updateKey]
      simp [putOp, if_neg hk, Nat.not_lt.mpr hv2, hlook1, notExistsSentinel, hupd]

/-- Closed witness for C1: the §8 optimistic-concurrency scenario at a
concrete Key and Values. -/
theorem put_optimistic_concurrency_witness :
    putOp [] [1] [7] 0 = .ok ([([1], ⟨[7], 1⟩)], 1) ∧
    putOp [([1], ⟨[7], 1⟩)] [1] [8] 0 = .error .conflictError ∧
    putOp [([1], ⟨[7], 1⟩)] [1] [8] 1 = .ok ([([1], ⟨[8], 2⟩)], 2) :=
  put_optimistic_concurrency.2.2.2.2 [] [1] [7] [8] (by decide) (by decide) (by decide) rfl

/-- C6: for an existing Key, Delete at its current Version succeeds, a
subsequent Get returns `notFoundError`, and a subsequent create-only Put
with the not-exists sentinel succeeds with the new Version equal to 0. -/
theorem delete_get_recreate :
    ∀ (st : Store) (k : Key) (v' : Value) (e : Entry),
      StoreWF st → lookupKey st k = some e → k ≠ [] → v'.length ≤ maxValueSize →
      deleteOp st k (e.version : Int) = .ok (removeKey st k) ∧
      getOp (removeKey st k) k = .error .notFoundError ∧
      putOp (removeKey st k) k v' notExistsSentinel =
        .ok ((k, ⟨v', 0⟩) :: removeKey st k, 0) ∧
      versionOf ((k, ⟨v', 0⟩) :: removeKey st k) k = some 0 := by
  intro st k v' e hwf hlook hk hv
  have hgone : lookupKey (removeKey st k) k = none := lookupKey_removeKey_self st k hwf
  refine ⟨?_, ?_, ?_, ?_⟩
  · simp [deleteOp, hlook]
  · simp [getOp, hgone]
  · simp [putOp, if_neg hk, Nat.not_lt.mpr hv, hgone]
  · simp [versionOf, lookupKey]

/-- Closed witness for C6 at a concrete one-Key store. -/
theorem delete_get_recreate_witness :
    deleteOp [([1], ⟨[5], 3⟩)] [1] 3 = .ok [] ∧
    getOp [] [1] = .error .notFoundError ∧
    putOp [] [1] [9] notExistsSentinel = .ok ([([1], ⟨[9], 0⟩)], 0) := by
  have h := delete_get_recreate [([1], ⟨[5], 3⟩)] [1] [9] ⟨[5], 3⟩
    (by unfold StoreWF; decide) rfl (by decide) (by decide)
  exact ⟨h.1, h.2.1, h.2.2.1⟩

theorem putOp_ok_cases (st : Store) (k : Key) (v : Value) (ev : Int)
    (st' : Store) (newv : Nat) (h : putOp st k v ev = .ok (st', newv)) :
    (∃ e, lookupKey st k = some e ∧ st' = updateKey st k v (e.version + 1) ∧
      newv = e.version + 1) ∨
    (lookupKey st k = none ∧
      ((st' = (k, ⟨v, 0⟩) :: st ∧ newv = 0) ∨ (st' = (k, ⟨v, 1⟩) :: st ∧ newv = 1))) := by
  by_cases hk : k = []
  · simp [putOp, hk] at h
  by_cases hsz : maxValueSize < v.length
  · simp [putOp, hk, hsz] at h
  cases hlook : lookupKey st k with
  | some e =>
      by_cases hs : ev = notExistsSentinel
      · simp [putOp, hk, hsz, hs, hlook] at h
      · by_cases hver : (e.version : Int) = ev
        · simp [putOp, hk, hsz, hs, hlook, hver] at h
          exact Or.inl ⟨e, rfl, h.1.symm, h.2.symm⟩
        · simp [putOp, hk, hsz, hs, hlook, hver] at h
  | none =>
      by_cases hs : ev = notExistsSentinel
      · simp [putOp, hk, hsz, hs, hlook] at h
        exact Or.inr ⟨rfl, Or.inl ⟨h.1.symm, h.2.symm⟩⟩
      · by_cases h0 : ev = 0
        · simp [putOp, hk, hsz, hlook, h0, notExistsSentinel] at h
          exact Or.inr ⟨rfl, Or.inr ⟨h.1.symm, h.2.symm⟩⟩
        · simp [putOp, hk, hsz, hs, hlook, h0] at h

theorem deleteOp_ok_cases (st : Store) (k : Key) (ev : Int) (st' : Store)
    (h : deleteOp st k ev = .ok st') :
    ∃ e, lookupKey st k = some e ∧ st' = removeKey st k := by
  cases hlook : lookupKey st k with
  | none => simp [deleteOp, hlook] at h
  | some e =>
      by_cases hver : (e.version : Int) = ev
      · simp [deleteOp, hlook, hver] at h
        exact ⟨e, rfl, h.symm⟩
      · simp [deleteOp, hlook, hver] at h

/-- C2 counterexample: taken over a whole operation sequence the stored
Version of a Key is not monotonically non-decreasing — deleting a Key
and recreating it with the not-exists sentinel restarts its Version at
0, here dropping from 1 to 0. -/
theorem version_monotonic_counterexample :
    ¬ (∀ (ops : List Op) (i j : Nat) (k : Key) (vi vj : Nat), i ≤ j →
        versionOf (applyOps [] (ops.take i)) k = some vi →
        versionOf (applyOps [] (ops.take j)) k = some vj → vi ≤ vj) := by
  intro hmono
  have h := hmono [.put [1] [7] 0, .delete [1] 1, .put [1] [8] (-1)] 1 3 [1] 1 0
    (by omega) (by decide) (by decide)
  omega

/-- C2 amended: across every single operation the stored Version of a
Key that exists before and after is non-decreasing (a successful delete
removes the Key, and only recreation after deletion can lower its
Version); every successful write over an existing Key strictly increases
its Version by one; a Key either has no Version or a Version ≥ 0; and
Store well-formedness is preserved by every operation. -/
theorem version_invariant_amended :
    (∀ (st : Store) (op : Op) (k : Key) (e e' : Entry), StoreWF st →
       lookupKey st k = some e → lookupKey (applyOp st op) k = some e' →
       e.version ≤ e'.version) ∧
    (∀ (st : Store) (k : Key) (v : Value) (ev : Int) (st' : Store) (newv : Nat)
       (e : Entry), putOp st k v ev = .ok (st', newv) → lookupKey st k = some e →
       newv = e.version + 1) ∧
    (∀ (st : Store) (k : Key),
       versionOf st k = none ∨ ∃ ver, versionOf st k = some ver ∧ 0 ≤ ver) ∧
    (∀ (st : Store) (op : Op), StoreWF st → StoreWF (applyOp st op)) := by
  refine ⟨?_, ?_, ?_, ?_⟩
  · intro st op k e e' hwf hlook hlook'
    cases op with
    | get k2 =>
        simp only [applyOp] at hlook'
        rw [hlook] at hlook'
        cases hlook'
        exact Nat.le_refl _
    | list p t =>
        simp only [applyOp] at hlook'
        rw [hlook] at hlook'
        cases hlook'
        exact Nat.le_refl _
    | put k2 v ev =>
        simp only [applyOp] at hlook'
        cases hres : putOp st k2 v ev with
        | error err =>
            rw [hres] at hlook'
            simp only [] at hlook'
            rw [hlook] at hlook'
            cases hlook'
            exact Nat.le_refl _
        | ok p =>
            obtain ⟨st', newv⟩ := p
            rw [hres] at hlook'
            simp only [] at hlook'
            rcases putOp_ok_cases st k2 v ev st' newv hres with
              ⟨e2, hlook2, hst', _⟩ | ⟨hlook2, hcreate⟩
            · subst hst'
              by_cases hkk : k = k2
              · subst hkk
                rw [hlook] at hlook2
                cases hlook2
                rw [lookupKey_updateKey_self st k v (e.version + 1) e hlook] at hlook'
                cases hlook'
                exact Nat.le_succ _
              · rw [lookupKey_updateKey_ne st k k2 v _ hkk] at hlook'
                rw [hlook] at hlook'
                cases hlook'
                exact Nat.le_refl _
            · by_cases hkk : k = k2
              · subst hkk
                rw [hlook] at hlook2
                cases hlook2
              · rcases hcreate with ⟨hst', _⟩ | ⟨hst', _⟩ <;>
                  · subst hst'
                    rw [show lookupKey ((k2, _) :: st) k = lookupKey st k by
                      simp [lookupKey, Ne.symm hkk]] at hlook'
                    rw [hlook] at hlook'
                    cases hlook'
                    exact Nat.le_refl _
    | delete k2 ev =>
        simp only [applyOp] at hlook'
        cases hres : deleteOp st k2 ev with
        | error err =>
            rw [hres] at hlook'
            simp only [] at hlook'
            rw [hlook] at hlook'
            cases hlook'
            exact Nat.le_refl _
        | ok st' =>
            rw [hres] at hlook'
            simp only [] at hlook'
            obtain ⟨e2, hlook2, hst'⟩ := deleteOp_ok_cases st k2 ev st' hres
            subst hst'
            by_cases hkk : k = k2
            · subst hkk
              rw [lookupKey_removeKey_self st k hwf] at hlook'
              cases hlook'
            · rw [lookupKey_removeKey_ne st k k2 hkk] at hlook'
              rw [hlook] at hlook'
              cases hlook'
              exact Nat.le_refl _
  · intro st k v ev st' newv e hput hlook
    rcases putOp_ok_cases st k v ev st' newv hput with
      ⟨e2, hlook2, _, hnew⟩ | ⟨hlook2, _⟩
    · rw [hlook] at hlook2
      cases hlook2
      exact hnew
    · rw [hlook] at hlook2
      cases hlook2
  · intro st k
    cases h : lookupKey st k with
    | none => exact Or.inl (by simp [versionOf, h])
    | some e => exact Or.inr ⟨e.version, by simp [versionOf, h], Nat.zero_le _⟩
  · intro st op hwf
    cases op with
    | get k2 => exact hwf
    | list p t => exact hwf
    | put k2 v ev =>
        simp only [applyOp]
        cases hres : putOp st k2 v ev with
        | error err => exact hwf
        | ok p =>
            obtain ⟨st', newv⟩ := p
            simp only []
            rcases putOp_ok_cases st k2 v ev st' newv hres with
              ⟨e2, hlook2, hst', _⟩ | ⟨hlook2, hcreate⟩
            · subst hst'
              unfold StoreWF
              rw [map_fst_updateKey]
              exact hwf
            · have hnot : k2 ∉ st.map Prod.fst := (lookupKey_eq_none_iff st k2).mp hlook2
              rcases hcreate with ⟨hst', _⟩ | ⟨hst', _⟩ <;>
                · subst hst'
                  exact List.nodup_cons.mpr ⟨hnot, hwf⟩
    | delete k2 ev =>
        simp only [applyOp]
        cases hres : deleteOp st k2 ev with
        | error err => exact hwf
        | ok st' =>
            simp only []
            obtain ⟨e2, hlook2, hst'⟩ := deleteOp_ok_cases st k2 ev st' hres
            subst hst'
            exact ((removeKey_sublist st k2).map Prod.fst).nodup hwf

/-- Closed witness for the amended C2 at a concrete store and write. -/
theorem version_invariant_amended_witness : (3 : Nat) ≤ 4 :=
  version_invariant_amended.1 [([1], ⟨[5], 3⟩)] (.put [1] [6] 3) [1] ⟨[5], 3⟩ ⟨[6], 4⟩
    (by unfold StoreWF; decide) rfl (by decide)

theorem keyLe_cons_iff (x y : Nat) (as bs : Key) :
    keyLe (x :: as) (y :: bs) = true ↔ (x < y ∨ (x = y ∧ keyLe as bs = true)) := by
  by_cases hxy : x < y
  · simp [keyLe, hxy]
  · by_cases hyx : y < x
    · have hne : x ≠ y := by omega
      simp [keyLe, hxy, hyx, hne]
    · have hxy2 : x = y := by omega
      subst hxy2
      simp [keyLe, hxy]

theorem keyLe_total : ∀ (a b : Key), keyLe a b = true ∨ keyLe b a = true := by
  intro a
  induction a with
  | nil => intro b; exact Or.inl rfl
  | cons x as ih =>
      intro b
      cases b with
      | nil => exact Or.inr rfl
      | cons y bs =>
          by_cases hxy : x < y
          · exact Or.inl ((keyLe_cons_iff x y as bs).mpr (Or.inl hxy))
          · by_cases hyx : y < x
            · exact Or.inr ((keyLe_cons_iff y x bs as).mpr (Or.inl hyx))
            · have hxy2 : x = y := by omega
              subst hxy2
              rcases ih bs with h | h
              · exact Or.inl ((keyLe_cons_iff x x as bs).mpr (Or.inr ⟨rfl, h⟩))
              · exact Or.inr ((keyLe_cons_iff x x bs as).mpr (Or.inr ⟨rfl, h⟩))

theorem keyLe_trans :
    ∀ (a b c : Key), keyLe a b = true → keyLe b c = true → keyLe a c = true := by
  intro a
  induction a with
  | nil => intro b c _ _; rfl
  | cons x as ih =>
      intro b c hab hbc
      cases b with
      | nil => simp [keyLe] at hab
      | cons y bs =>
          cases c with
          | nil => simp [keyLe] at hbc
          | cons z cs =>
              rw [keyLe_cons_iff] at hab hbc ⊢
              rcases hab with h1 | ⟨h1, hab'⟩
              · rcases hbc with h2 | ⟨h2, _⟩
                · exact Or.inl (Nat.lt_trans h1 h2)
                · exact Or.inl (h2 ▸ h1)
              · rcases hbc with h2 | ⟨h2, hbc'⟩
                · exact Or.inl (h1 ▸ h2)
                · exact Or.inr ⟨h1.trans h2, ih bs cs hab' hbc'⟩

theorem entryLe_total : ∀ (a b : Key × Nat), entryLe a b ∨ entryLe b a :=
  fun a b => keyLe_total a.1 b.1

theorem entryLe_trans : ∀ (a b c : Key × Nat), entryLe a b → entryLe b c → entryLe a c :=
  fun a b c hab hbc => keyLe_trans a.1 b.1 c.1 hab hbc

theorem ofDigits_toDigits256 :
    ∀ (fuel n : Nat), n ≤ fuel → Nat.ofDigits 256 (toDigits256 fuel n) = n := by
  intro fuel
  induction fuel with
  | zero =>
      intro n h
      have : n = 0 := Nat.le_zero.mp h
      subst this
      simp [toDigits256, Nat.ofDigits]
  | succ fuel ih =>
      intro n h
      cases n with
      | zero => simp [toDigits256, Nat.ofDigits]
      | succ m =>
          rw [toDigits256, Nat.ofDigits_cons]
          have hdiv : (m + 1) / 256 ≤ fuel := by
            have := Nat.div_lt_self (Nat.succ_pos m) (by decide : 1 < 256)
            omega
          rw [ih ((m + 1) / 256) hdiv]
          exact Nat.mod_add_div _ _

theorem toDigits256_lt :
    ∀ (fuel n : Nat), (toDigits256 fuel n).all (fun b => b < 256) = true := by
  intro fuel
  induction fuel with
  | zero => intro n; rfl
  | succ fuel ih =>
      intro n
      cases n with
      | zero => rfl
      | succ m =>
          rw [toDigits256, List.all_cons]
          simp [ih]
          exact Nat.mod_lt _ (by decide)

theorem parseToken_tokenOf (n : Nat) : parseToken (tokenOf n) = some n := by
  unfold parseToken tokenOf
  rw [if_pos (toDigits256_lt n n)]
  rw [ofDigits_toDigits256 n n (Nat.le_refl n)]

theorem listOp_tokenOf (st : Store) (p : Key) (start : Nat) :
    listOp st p (tokenOf start) =
      .ok (((keysWithPref st p).drop start).take pageSize,
        if start + pageSize < (keysWithPref st p).length then
          some (tokenOf (start + pageSize))
        else none) := by
  simp [listOp, parseToken_tokenOf]

theorem collectPages_eq_drop (st : Store) (p : Key) :
    ∀ (fuel start : Nat), (keysWithPref st p).length ≤ start + fuel * pageSize →
      collectPages st p start fuel = (keysWithPref st p).drop start := by
  intro fuel
  induction fuel with
  | zero =>
      intro start hle
      simp only [Nat.zero_mul, Nat.add_zero] at hle
      rw [collectPages]
      exact (List.drop_eq_nil_of_le hle).symm
  | succ fuel ih =>
      intro start hle
      rw [Nat.succ_mul] at hle
      rw [collectPages, listOp_tokenOf]
      by_cases hlt : start + pageSize < (keysWithPref st p).length
      · rw [if_pos hlt]
        simp only [parseToken_tokenOf]
        rw [ih (start + pageSize) (by omega)]
        rw [← List.drop_drop]
        exact List.take_append_drop _ _
      · rw [if_neg hlt]
        apply List.take_of_length_le
        rw [List.length_drop]
        omega

theorem map_fst_pair_version (l : List (Key × Entry)) :
    (l.map (fun kv => (kv.1, kv.2.version))).map Prod.fst = l.map Prod.fst := by
  induction l with
  | nil => rfl
  | cons kv rest ih => simp [ih]

/-- C5: with no intervening writes, driving `List` to exhaustion from
token 0 concatenates to exactly the set of Keys having the prefix, each
Key exactly once, in ascending Key order; and `List` fails with
`validationError` on a malformed PageToken. -/
theorem list_pagination_complete :
    (∀ (st : Store) (p : Key), StoreWF st →
       collectPages st p 0 (keysWithPref st p).length = keysWithPref st p ∧
       List.Sorted entryLe (keysWithPref st p) ∧
       ((keysWithPref st p).map Prod.fst).Nodup ∧
       (∀ k : Key, k ∈ (keysWithPref st p).map Prod.fst ↔
         (isPrefOf p k = true ∧ k ∈ st.map Prod.fst))) ∧
    (∀ (st : Store) (p : Key) (t : List Nat), parseToken t = none →
       listOp st p t = .error .validationError) := by
  constructor
  · intro st p hwf
    have hperm :
        (keysWithPref st p).Perm
          ((st.filter (fun kv => isPrefOf p kv.1)).map (fun kv => (kv.1, kv.2.version))) :=
      List.perm_insertionSort entryLe _
    have hmapperm :
        ((keysWithPref st p).map Prod.fst).Perm
          ((st.filter (fun kv => isPrefOf p kv.1)).map Prod.fst) := by
      have h := hperm.map Prod.fst
      rwa [map_fst_pair_version] at h
    have hsub :
        ((st.filter (fun kv => isPrefOf p kv.1)).map Prod.fst).Sublist
          (st.map Prod.fst) :=
      (List.filter_sublist st).map Prod.fst
    refine ⟨?_, ?_, ?_, ?_⟩
    · have h := collectPages_eq_drop st p (keysWithPref st p).length 0
        (by
          simp only [Nat.zero_add]
          exact Nat.le_mul_of_pos_right _ (by decide : 0 < pageSize))
      rwa [List.drop_zero] at h
    · exact @List.sorted_insertionSort _ entryLe _ ⟨entryLe_total⟩ ⟨entryLe_trans⟩ _
    · exact hmapperm.symm.nodup (hsub.nodup hwf)
    · intro k
      rw [hmapperm.mem_iff]
      simp only [List.mem_map, List.mem_filter]
      constructor
      · rintro ⟨kv, ⟨hmem, hq⟩, hfst⟩
        subst hfst
        exact ⟨hq, ⟨kv, hmem, rfl⟩⟩
      · rintro ⟨hq, ⟨kv, hmem, hfst⟩⟩
        subst hfst
        exact ⟨kv, ⟨hmem, hq⟩, rfl⟩
  · intro st p t h
    simp [listOp, h]

/-- Closed witness for C5 at a concrete two-Key store and a malformed
token. -/
theorem list_pagination_complete_witness :
    collectPages [([2], ⟨[6], 0⟩), ([1], ⟨[5], 3⟩)] [] 0
        (keysWithPref [([2], ⟨[6], 0⟩), ([1], ⟨[5], 3⟩)] []).length =
      keysWithPref [([2], ⟨[6], 0⟩), ([1], ⟨[5], 3⟩)] [] ∧
    listOp [] [] [300] = .error .validationError :=
  ⟨(list_pagination_complete.1 [([2], ⟨[6], 0⟩), ([1], ⟨[5], 3⟩)] []
      (by unfold StoreWF; decide)).1,
   list_pagination_complete.2 [] [] [300] (by decide)⟩

end VSS
